import Mathlib

/-!
Verification of the CMSIS comparison kernels of MobileNLD-FL
(src/MobileNLD-FL/MobileNLD-FL/CMSISImplementation.c).

The C source operates on Q15 samples (int16_t) gathered into a phase
space, computes squared distances with NEON intrinsics, and reports
instrumentation metrics.  The shallow embedding below models:

- int16_t / int32_t values as mathematical integers together with the
  explicit two-complement wrap functions toInt16 / toInt32 that are
  applied exactly where the machine arithmetic can wrap
  (vsubq_s16 wraps differences mod 2^16; int32_t accumulation wraps
  mod 2^32; the cast (int16_t)(x >> 15) wraps mod 2^16);
- the arithmetic right shift sum >> 15 of a (possibly negative)
  int32_t as floor division by 32768 (asr15);
- signal->data[n] as sget, a total lookup; every theorem that relies
  on an index stays inside the proven in-bounds ranges;
- the C parameters embedding_dim and time_delay as naturals: for
  embedding_dim >= 1 a non-positive phase_space_size makes every C
  loop run zero times, exactly as the truncated natural subtraction
  in psSize does;
- double-valued metrics as rationals, and the unguarded IEEE double
  division of get_performance_metrics as an Option (none stands for
  the non-finite NaN / infinity results of dividing by zero).
-/

/-- Model of signal indexing: signal->data[n]. -/
def sget (s : List Int) (n : Nat) : Int := s.getD n 0

/-- Two-complement wrap to int16_t. -/
def toInt16 (x : Int) : Int := (x + 32768) % 65536 - 32768

/-- Two-complement wrap to int32_t. -/
def toInt32 (x : Int) : Int := (x + 2147483648) % 4294967296 - 2147483648

/-- INT32_MAX, the per-lane seed of the minimum accumulator. -/
def int32Max : Int := 2147483647

/-- Arithmetic right shift of an int32_t by 15 (floor division by 2^15). -/
def asr15 (x : Int) : Int := (x - x % 32768) / 32768

/-- phase_space_size = signal->length - (embedding_dim - 1) * time_delay.
For embedding_dim >= 1 the truncated natural subtraction runs the same
number of loop iterations as the C code does for a non-positive size. -/
def psSize (L d τ : Nat) : Nat := L - (d - 1) * τ

/-- Row i of the generic (pointer-per-row) phase space:
phase_space[i][j] = signal->data[i + j * time_delay] for j < embedding_dim. -/
def cmsisRow (s : List Int) (τ i d : Nat) : List Int :=
  (List.range d).map fun k => sget s (i + k * τ)

/-- Read access phase_space[i][k] of the generic strategy. -/
def cmsisRowGet (s : List Int) (τ i d : Nat) : Nat → Int :=
  fun k => sget (cmsisRow s τ i d) k

/-- Chunk start indices of the 8-lane loops that run while k <= d - 8:
0, 8, ..., 8 * (d / 8 - 1). -/
def chunkStarts (d : Nat) : List Nat := (List.range (d / 8)).map fun c => 8 * c

/-- One generic NEON chunk (lines 53-62 of CMSISImplementation.c):
vsubq_s16 wraps each difference to int16_t, vmull_s16 squares exactly
into int32x4 lanes, vaddq_s32 adds lane-wise mod 2^32 and vaddvq_s32
reduces the four lanes mod 2^32. -/
def simdChunk (vi vj : Nat → Int) (k : Nat) : Int :=
  toInt32
    (toInt32 (toInt16 (vi k - vj k) * toInt16 (vi k - vj k)
        + toInt16 (vi (k + 4) - vj (k + 4)) * toInt16 (vi (k + 4) - vj (k + 4)))
      + toInt32 (toInt16 (vi (k + 1) - vj (k + 1)) * toInt16 (vi (k + 1) - vj (k + 1))
        + toInt16 (vi (k + 5) - vj (k + 5)) * toInt16 (vi (k + 5) - vj (k + 5)))
      + toInt32 (toInt16 (vi (k + 2) - vj (k + 2)) * toInt16 (vi (k + 2) - vj (k + 2))
        + toInt16 (vi (k + 6) - vj (k + 6)) * toInt16 (vi (k + 6) - vj (k + 6)))
      + toInt32 (toInt16 (vi (k + 3) - vj (k + 3)) * toInt16 (vi (k + 3) - vj (k + 3))
        + toInt16 (vi (k + 7) - vj (k + 7)) * toInt16 (vi (k + 7) - vj (k + 7))))

/-- The generic per-pair accumulator (lines 49-69): int32_t sum = 0,
8-lane chunks while k <= d - 8, then the scalar cleanup loop whose
difference is computed in full int precision and whose product and
accumulation wrap mod 2^32. -/
def cmsisSum (vi vj : Nat → Int) (d : Nat) : Int :=
  (List.range' (8 * (d / 8)) (d - 8 * (d / 8))).foldl
    (fun acc k => toInt32 (acc + toInt32 ((vi k - vj k) * (vi k - vj k))))
    ((chunkStarts d).foldl (fun acc k => toInt32 (acc + simdChunk vi vj k)) 0)

/-- The value written to distances[i * N + j] by the generic strategy:
(int16_t)(sum >> 15). -/
def cmsisDistanceVal (s : List Int) (τ d i j : Nat) : Int :=
  toInt16 (asr15 (cmsisSum (cmsisRowGet s τ i d) (cmsisRowGet s τ j d) d))

/-- All cells (i, j, value) the generic strategy writes: the strict
upper triangle j in (i, N). -/
def cmsisDistances (s : List Int) (d τ : Nat) : List (Nat × Nat × Int) :=
  ((List.range (psSize s.length d τ)).map fun i =>
    (List.range' (i + 1) (psSize s.length d τ - (i + 1))).map fun j =>
      (i, j, cmsisDistanceVal s τ d i j)).flatten

/-- Observable outcome of cmsis_compute_lyapunov_q15: the int16_t
written through the result pointer and the distance cells computed
along the way.  The timing metrics are wall-clock values and are not
part of the numerical model. -/
structure LyapOut where
  result : Int
  distances : List (Nat × Nat × Int)
deriving DecidableEq

/-- cmsis_compute_lyapunov_q15: builds the row-per-pointer phase space,
fills the upper-triangle distance buffer, and stores the placeholder
*result = 0 (line 77) unconditionally - there is no validation and no
error path in the C function. -/
def cmsisComputeLyapunov (s : List Int) (d τ : Nat) : LyapOut :=
  { result := 0, distances := cmsisDistances s d τ }

/-- One 8-wide gather of the specialized reconstruction (lines 111-123):
values written at row offsets j..j+7 are signal->data[i + (j+t) * τ]. -/
def gather8 (s : List Int) (τ i j : Nat) : List Int :=
  (List.range 8).map fun t => sget s (i + (j + t) * τ)

/-- Row i of the specialized contiguous phase space: gather chunks while
j <= d - 8, then the scalar tail writing signal->data[i + j * τ]. -/
def nldRow (s : List Int) (τ i d : Nat) : List Int :=
  ((chunkStarts d).map fun j => gather8 s τ i j).flatten
    ++ (List.range' (8 * (d / 8)) (d - 8 * (d / 8))).map fun j => sget s (i + j * τ)

/-- The contiguous buffer: row i occupies offsets [i * d, (i+1) * d). -/
def nldPhase (s : List Int) (d τ : Nat) : List Int :=
  ((List.range (psSize s.length d τ)).map fun i => nldRow s τ i d).flatten

/-- Flat read phase_space[idx] of the specialized strategy. -/
def nldGet (s : List Int) (d τ : Nat) : Nat → Int :=
  fun idx => sget (nldPhase s d τ) idx

/-- Chunk starts of the specialized distance loop, which runs
for (k = 0; k < d; k += 8): 0, 8, ..., 8 * ((d + 7) / 8 - 1). -/
def nldChunkStarts (d : Nat) : List Nat :=
  (List.range ((d + 7) / 8)).map fun c => 8 * c

/-- Wrapped difference of the flat reads at offset m of the two rows
based at bi and bj: vsubq_s16 of row_i[m] and row_j[m]. -/
def dread (p : Nat → Int) (bi bj m : Nat) : Int := toInt16 (p (bi + m) - p (bj + m))

/-- Lane l increment of one specialized chunk: vmull squares the wrapped
differences at offsets k+l and k+4+l exactly, vaddq_s32 adds the two
products mod 2^32 (lines 152-160). -/
def laneStep (p : Nat → Int) (bi bj l k : Nat) : Int :=
  toInt32 (dread p bi bj (k + l) * dread p bi bj (k + l)
    + dread p bi bj (k + 4 + l) * dread p bi bj (k + 4 + l))

/-- Lane l of sum_vec after the k loop for the pair of rows at bi, bj:
lane-wise wrapping accumulation over all chunk starts. -/
def nldLaneSum (p : Nat → Int) (bi bj d l : Nat) : Int :=
  (nldChunkStarts d).foldl (fun acc k => toInt32 (acc + laneStep p bi bj l k)) 0

/-- Total of the four lane accumulators of one pair, wrapped to int32_t.
This is the pre-shift squared distance the spec attributes to a pair;
the C code never forms it - it folds the lanes into minima instead. -/
def nldPairTotal (p : Nat → Int) (bi bj d : Nat) : Int :=
  toInt32 (nldLaneSum p bi bj d 0 + nldLaneSum p bi bj d 1
    + nldLaneSum p bi bj d 2 + nldLaneSum p bi bj d 3)

/-- abs(i - j) computed on the int values of the two indices. -/
def absDiff (i j : Nat) : Nat := ((i : Int) - (j : Int)).natAbs

/-- Lane l of min_dist_vec after the candidate loop of query i:
starts at INT32_MAX, skips candidates with |i - j| < time_delay
(line 146), and takes vminq_s32 with sum_vec of every other candidate. -/
def nldMinLane (s : List Int) (d τ i l : Nat) : Int :=
  (List.range (psSize s.length d τ)).foldl
    (fun acc j =>
      if absDiff i j < τ then acc
      else min acc (nldLaneSum (nldGet s d τ) (i * d) (j * d) d l))
    int32Max

/-- vminvq_s32: horizontal minimum of the four lanes of min_dist_vec. -/
def nldMinPre (s : List Int) (d τ i : Nat) : Int :=
  min (min (nldMinLane s d τ i 0) (nldMinLane s d τ i 1))
    (min (nldMinLane s d τ i 2) (nldMinLane s d τ i 3))

/-- min_distances[i] = (int16_t)(vminvq_s32(min_dist_vec) >> 15)
(line 172). -/
def nldMinDistance (s : List Int) (d τ i : Nat) : Int :=
  toInt16 (asr15 (nldMinPre s d τ i))

/-- The candidate indices the specialized search may use for query i:
all j < N with |i - j| >= time_delay. -/
def eligibleIdx (N τ i : Nat) : List Nat :=
  (List.range N).filter fun j => decide (¬ absDiff i j < τ)

/-- Exact accumulated squared distance of two vectors of length d,
before any scaling: sum over k < d of (vi k - vj k)^2. -/
def exactSum (vi vj : Nat → Int) (d : Nat) : Int :=
  ((List.range d).map fun k => (vi k - vj k) * (vi k - vj k)).sum

/-- Follows the words of the spec for the refinement claim: the distance
of pair (i, j) is sum over k of (v_i[k] - v_j[k])^2 with
v_i[k] = signal[i + k * time_delay], down-scaled by the fixed rule
of shifting right by 15. -/
def specDistance (s : List Int) (d τ i j : Nat) : Int :=
  asr15 (exactSum (fun k => sget s (i + k * τ)) (fun k => sget s (j + k * τ)) d)

/-- The process-wide counters; reset_performance_counters zeroes them. -/
structure PerfCounters where
  total_instructions : Nat
  simd_instructions : Nat
  memory_accesses : Nat
deriving DecidableEq

/-- reset_performance_counters: zeroes every counter. -/
def resetPerformanceCounters : PerfCounters :=
  { total_instructions := 0, simd_instructions := 0, memory_accesses := 0 }

/-- Models the derivation (double)g_simd_instructions /
g_total_instructions * 100.0 of get_performance_metrics.  The C code
divides without any guard; in IEEE double arithmetic a zero divisor
yields NaN (0.0/0.0) or an infinity, never a finite number, modelled
here as none; a nonzero divisor yields the finite quotient, modelled as
some of the exact rational value. -/
def simdUtilizationPercent (simd total : Nat) : Option ℚ :=
  if total = 0 then none else some ((simd : ℚ) / (total : ℚ) * 100)

/-- performance_metrics_t with the double fields as exact rationals. -/
structure PerformanceMetrics where
  processing_time_ms : ℚ
  simd_utilization_percent : ℚ
  total_instructions : Nat
  simd_instructions : Nat
  memory_bandwidth_gb_s : ℚ
deriving DecidableEq

/-- cmsis_compute_dfa_q15 (lines 196-204): a placeholder.  It never
touches the signal, the box sizes or the alpha output (none = the
caller buffer is left unwritten) and returns the zero-initialized
metrics record with only simd_utilization_percent set to 60.0. -/
def cmsisComputeDfa (signal : List Int) (minBox maxBox : Int) :
    Option Int × PerformanceMetrics :=
  (none,
    { processing_time_ms := 0, simd_utilization_percent := 60,
      total_instructions := 0, simd_instructions := 0,
      memory_bandwidth_gb_s := 0 })

/-- nld_compute_dfa_q15 (lines 206-214): the same placeholder with
simd_utilization_percent = 95.0. -/
def nldComputeDfa (signal : List Int) (minBox maxBox : Int) :
    Option Int × PerformanceMetrics :=
  (none,
    { processing_time_ms := 0, simd_utilization_percent := 95,
      total_instructions := 0, simd_instructions := 0,
      memory_bandwidth_gb_s := 0 })

/-- Concrete signal exhibiting the lane-wise minimum behaviour:
with embedding_dim = 8 and time_delay = 1 the phase space has the two
rows [256,0,0,0,0,0,0,0] and [0,0,0,0,0,0,0,0]. -/
def sLane : List Int := [256, 0, 0, 0, 0, 0, 0, 0, 0]

/-- Concrete signal exhibiting the mod 2^16 wrap of vsubq_s16:
rows [32767,-32768,0,0,0,0,0,0] and [-32768,0,0,0,0,0,0,0]. -/
def sWrap : List Int := [32767, -32768, 0, 0, 0, 0, 0, 0, 0]

/-! ## Arithmetic facts about the wrap functions -/

theorem toInt32_zero : toInt32 0 = 0 := by decide

theorem toInt32_eq_self (x : Int) (h1 : -2147483648 ≤ x) (h2 : x < 2147483648) :
    toInt32 x = x := by
  unfold toInt32; omega

theorem toInt32_add_left (a b : Int) : toInt32 (toInt32 a + b) = toInt32 (a + b) := by
  unfold toInt32; omega

theorem toInt32_add_right (a b : Int) : toInt32 (a + toInt32 b) = toInt32 (a + b) := by
  unfold toInt32; omega

theorem toInt32_congr (a b : Int) (h : a % 4294967296 = b % 4294967296) :
    toInt32 a = toInt32 b := by
  unfold toInt32; omega

theorem toInt32_emod_self (a : Int) : toInt32 a % 4294967296 = a % 4294967296 := by
  unfold toInt32; omega

theorem toInt32_four_emod (p0 p1 p2 p3 : Int) :
    toInt32 (toInt32 p0 + toInt32 p1 + toInt32 p2 + toInt32 p3) % 4294967296
      = (p0 + p1 + p2 + p3) % 4294967296 := by
  unfold toInt32; omega

/-! ## Fold and sum lemmas -/

theorem foldl_wrap_add {α : Type} (f : α → Int) (l : List α) : ∀ a : Int,
    l.foldl (fun acc k => toInt32 (acc + f k)) (toInt32 a)
      = toInt32 (a + (l.map f).sum) := by
  induction l with
  | nil => intro a; simp
  | cons x xs ih =>
      intro a
      simp only [List.foldl_cons, List.map_cons, List.sum_cons]
      rw [toInt32_add_left, ih (a + f x), add_assoc]

theorem sum_map_add {α : Type} (f g : α → Int) (l : List α) :
    (l.map fun x => f x + g x).sum = (l.map f).sum + (l.map g).sum := by
  induction l with
  | nil => simp
  | cons x xs ih => simp only [List.map_cons, List.sum_cons, ih]; ring

theorem sum_map_emod {α : Type} (f g : α → Int) (l : List α)
    (h : ∀ x ∈ l, f x % 4294967296 = g x % 4294967296) :
    (l.map f).sum % 4294967296 = (l.map g).sum % 4294967296 := by
  induction l with
  | nil => simp
  | cons x xs ih =>
      simp only [List.map_cons, List.sum_cons]
      rw [Int.add_emod, h x (by simp), ih fun y hy => h y (by simp [hy]),
        ← Int.add_emod]

theorem foldl_min_le_init (l : List Int) : ∀ a : Int, l.foldl min a ≤ a := by
  induction l with
  | nil => intro a; exact le_refl a
  | cons x xs ih => intro a; exact le_trans (ih (min a x)) (min_le_left a x)

theorem foldl_min_le_mem (l : List Int) (x : Int) (hx : x ∈ l) :
    ∀ a : Int, l.foldl min a ≤ x := by
  induction l with
  | nil => exact absurd hx (List.not_mem_nil x)
  | cons y ys ih =>
      intro a
      rcases List.mem_cons.mp hx with h | h
      · subst h
        exact le_trans (foldl_min_le_init ys (min a x)) (min_le_right a x)
      · exact ih h (min a y)

theorem foldl_min_mem_or (l : List Int) : ∀ a : Int,
    l.foldl min a = a ∨ l.foldl min a ∈ l := by
  induction l with
  | nil => intro a; exact Or.inl rfl
  | cons y ys ih =>
      intro a
      rcases ih (min a y) with h | h
      · rcases min_choice a y with hc | hc
        · exact Or.inl (by rw [List.foldl_cons, h, hc])
        · exact Or.inr (by rw [List.foldl_cons, h, hc]; exact List.mem_cons_self y ys)
      · exact Or.inr (List.mem_cons_of_mem y h)

theorem foldl_guard_eq_filter (p : Nat → Prop) [DecidablePred p]
    (g : Int → Nat → Int) (l : List Nat) : ∀ a : Int,
    l.foldl (fun acc j => if p j then acc else g acc j) a
      = (l.filter fun j => decide (¬ p j)).foldl g a := by
  induction l with
  | nil => intro a; rfl
  | cons x xs ih =>
      intro a
      by_cases hx : p x
      · simp [List.foldl_cons, List.filter_cons, hx, ih]
      · simp [List.foldl_cons, List.filter_cons, hx, ih]

theorem foldl_min_map (S : Nat → Int) (l : List Nat) : ∀ a : Int,
    l.foldl (fun acc j => min acc (S j)) a = (l.map S).foldl min a := by
  induction l with
  | nil => intro a; rfl
  | cons x xs ih => intro a; simp only [List.foldl_cons, List.map_cons]; exact ih _

/-! ## Range decomposition lemmas -/

theorem range'_eight (s : Nat) :
    List.range' s 8 = [s, s+1, s+2, s+3, s+4, s+5, s+6, s+7] := rfl

theorem range_eight : List.range 8 = [0, 1, 2, 3, 4, 5, 6, 7] := rfl

theorem range'_split (m : Nat) : ∀ s n : Nat,
    List.range' s (m + n) = List.range' s m ++ List.range' (s + m) n := by
  induction m with
  | zero => intro s n; simp
  | succ m ih =>
      intro s n
      rw [show m + 1 + n = (m + n) + 1 by omega, List.range'_succ, ih (s + 1) n,
        List.range'_succ]
      simp only [List.cons_append]
      rw [show s + 1 + m = s + (m + 1) by omega]

theorem chunk_sum_split (h : Nat → Int) (q : Nat) :
    (((List.range q).map fun c => 8 * c).map
        fun k => ((List.range 8).map fun t => h (k + t)).sum).sum
      = ((List.range (8 * q)).map h).sum := by
  induction q with
  | zero => simp
  | succ q ih =>
      rw [show List.range (q + 1) = List.range q ++ [q] from List.range_succ q,
        List.map_append, List.map_append, List.sum_append, ih]
      rw [show 8 * (q + 1) = 8 * q + 8 by ring, List.range_eq_range' (8 * q + 8),
        range'_split (8 * q) 0 8, List.map_append, List.sum_append,
        ← List.range_eq_range' (8 * q)]
      simp [range'_eight, range_eight]

theorem toInt32_four_add_emod (p0 p1 p2 p3 : Int) :
    (toInt32 p0 + toInt32 p1 + toInt32 p2 + toInt32 p3) % 4294967296
      = (p0 + p1 + p2 + p3) % 4294967296 := by
  unfold toInt32; omega

theorem foldl_wrap_add0 {α : Type} (f : α → Int) (l : List α) :
    l.foldl (fun acc k => toInt32 (acc + f k)) 0 = toInt32 ((l.map f).sum) := by
  have h := foldl_wrap_add f l 0
  rw [toInt32_zero] at h
  rw [h, zero_add]

/-! ## Lookup lemmas for the reconstructed phase spaces -/

theorem getD_map_range {α : Type} (f : Nat → α) (dflt : α) {N i : Nat} (hi : i < N) :
    ((List.range N).map f).getD i dflt = f i := by
  rw [List.getD_eq_getElem _ _ (by simpa using hi)]
  simp

theorem cmsisRowGet_eq (s : List Int) (τ i d k : Nat) (hk : k < d) :
    cmsisRowGet s τ i d k = sget s (i + k * τ) := by
  unfold cmsisRowGet cmsisRow
  unfold sget
  exact getD_map_range _ _ hk

theorem gather_flatten {α : Type} (g : Nat → α) (q : Nat) : ∀ r : Nat,
    (((List.range q).map fun c => 8 * c).map
        fun j => (List.range 8).map fun t => g (j + t)).flatten
      ++ (List.range' (8 * q) r).map g = (List.range (8 * q + r)).map g := by
  induction q with
  | zero => intro r; simp [List.range_eq_range']
  | succ q ih =>
      intro r
      have hchunk : ((List.range 8).map fun t => g (8 * q + t))
            ++ (List.range' (8 * q + 8) r).map g
          = (List.range' (8 * q) (8 + r)).map g := by
        rw [range'_split 8 (8 * q) r, List.map_append]
        simp [range'_eight, range_eight]
      rw [show List.range (q + 1) = List.range q ++ [q] from List.range_succ q,
        show 8 * (q + 1) + r = 8 * q + (8 + r) by ring, ← ih (8 + r),
        show 8 * (q + 1) = 8 * q + 8 by ring, ← hchunk]
      simp [List.append_assoc]

theorem nldRow_eq (s : List Int) (τ i d : Nat) : nldRow s τ i d = cmsisRow s τ i d := by
  unfold nldRow cmsisRow gather8 chunkStarts
  have h := gather_flatten (fun m => sget s (i + m * τ)) (d / 8) (d - 8 * (d / 8))
  rw [show 8 * (d / 8) + (d - 8 * (d / 8)) = d from by omega] at h
  exact h

theorem nldRow_length (s : List Int) (τ i d : Nat) : (nldRow s τ i d).length = d := by
  rw [nldRow_eq]
  unfold cmsisRow
  simp

theorem flatten_getD (d : Nat) : ∀ (L : List (List Int)) (i k : Nat),
    (∀ r ∈ L, r.length = d) → i < L.length → k < d →
    L.flatten.getD (i * d + k) 0 = (L.getD i []).getD k 0 := by
  intro L
  induction L with
  | nil => intro i k _ hi _; exact absurd hi (by simp)
  | cons row rest ih =>
      intro i k hlen hi hk
      have hrow : row.length = d := hlen row (List.mem_cons_self row rest)
      cases i with
      | zero =>
          rw [List.flatten_cons, zero_mul, zero_add, List.getD_append _ _ _ _ (by omega)]
          rfl
      | succ m =>
          rw [List.flatten_cons,
            show (m + 1) * d + k = row.length + (m * d + k) by rw [hrow]; ring,
            List.getD_append_right _ _ _ _ (by omega), Nat.add_sub_cancel_left,
            ih m k (fun r hr => hlen r (List.mem_cons_of_mem row hr)) (by simpa using hi) hk]
          rfl

theorem nldGet_eq (s : List Int) (d τ i k : Nat)
    (hi : i < psSize s.length d τ) (hk : k < d) :
    nldGet s d τ (i * d + k) = sget s (i + k * τ) := by
  unfold nldGet nldPhase
  unfold sget
  rw [flatten_getD d _ i k
    (by intro r hr
        rcases List.mem_map.mp hr with ⟨m, _, hm⟩
        rw [← hm]; exact nldRow_length s τ m d)
    (by simpa using hi) hk]
  rw [getD_map_range _ _ hi, nldRow_eq]
  unfold cmsisRow
  exact getD_map_range _ _ hk

/-! ## Characterizations of the two accumulation strategies -/

theorem simdChunk_emod (vi vj : Nat → Int) (k : Nat) :
    simdChunk vi vj k % 4294967296
      = (((List.range 8).map
          fun t => toInt16 (vi (k + t) - vj (k + t)) * toInt16 (vi (k + t) - vj (k + t))).sum)
        % 4294967296 := by
  unfold simdChunk
  rw [toInt32_four_emod]
  congr 1
  simp [range_eight]
  ring

theorem cmsisSum_char (vi vj : Nat → Int) (d : Nat) :
    cmsisSum vi vj d = toInt32
      (((List.range (8 * (d / 8))).map
          fun k => toInt16 (vi k - vj k) * toInt16 (vi k - vj k)).sum
        + ((List.range' (8 * (d / 8)) (d - 8 * (d / 8))).map
          fun k => (vi k - vj k) * (vi k - vj k)).sum) := by
  unfold cmsisSum
  rw [foldl_wrap_add0, foldl_wrap_add]
  apply toInt32_congr
  rw [Int.add_emod, Int.add_emod
    (((List.range (8 * (d / 8))).map
      fun k => toInt16 (vi k - vj k) * toInt16 (vi k - vj k)).sum)]
  congr 1
  congr 1
  · rw [sum_map_emod _
      (fun k => ((List.range 8).map
        fun t => toInt16 (vi (k + t) - vj (k + t)) * toInt16 (vi (k + t) - vj (k + t))).sum)
      _ (fun k _ => simdChunk_emod vi vj k)]
    unfold chunkStarts
    rw [chunk_sum_split (fun m => toInt16 (vi m - vj m) * toInt16 (vi m - vj m)) (d / 8)]
  · exact sum_map_emod _ _ _ (fun k _ => toInt32_emod_self _)

theorem nldLaneSum_char (p : Nat → Int) (bi bj d l : Nat) :
    nldLaneSum p bi bj d l
      = toInt32 (((nldChunkStarts d).map fun k => laneStep p bi bj l k).sum) := by
  unfold nldLaneSum
  rw [foldl_wrap_add0]

theorem laneStep_four_emod (p : Nat → Int) (bi bj k : Nat) :
    (laneStep p bi bj 0 k + laneStep p bi bj 1 k + laneStep p bi bj 2 k
        + laneStep p bi bj 3 k) % 4294967296
      = (((List.range 8).map
          fun t => dread p bi bj (k + t) * dread p bi bj (k + t)).sum) % 4294967296 := by
  unfold laneStep
  rw [toInt32_four_add_emod]
  congr 1
  simp [range_eight]
  ring

theorem four_lane_sum (p : Nat → Int) (bi bj : Nat) (l : List Nat) :
    ((l.map fun k => laneStep p bi bj 0 k).sum + (l.map fun k => laneStep p bi bj 1 k).sum
        + (l.map fun k => laneStep p bi bj 2 k).sum
        + (l.map fun k => laneStep p bi bj 3 k).sum) % 4294967296
      = ((l.map fun k =>
          ((List.range 8).map fun t => dread p bi bj (k + t) * dread p bi bj (k + t)).sum).sum)
        % 4294967296 := by
  induction l with
  | nil => simp
  | cons x xs ih =>
      simp only [List.map_cons, List.sum_cons]
      rw [show laneStep p bi bj 0 x + (xs.map fun k => laneStep p bi bj 0 k).sum
            + (laneStep p bi bj 1 x + (xs.map fun k => laneStep p bi bj 1 k).sum)
            + (laneStep p bi bj 2 x + (xs.map fun k => laneStep p bi bj 2 k).sum)
            + (laneStep p bi bj 3 x + (xs.map fun k => laneStep p bi bj 3 k).sum)
          = laneStep p bi bj 0 x + laneStep p bi bj 1 x + laneStep p bi bj 2 x
              + laneStep p bi bj 3 x
            + ((xs.map fun k => laneStep p bi bj 0 k).sum
              + (xs.map fun k => laneStep p bi bj 1 k).sum
              + (xs.map fun k => laneStep p bi bj 2 k).sum
              + (xs.map fun k => laneStep p bi bj 3 k).sum) by ring]
      rw [Int.add_emod, laneStep_four_emod, ih, ← Int.add_emod]

theorem nldPairTotal_char (p : Nat → Int) (bi bj d : Nat) (h8 : d % 8 = 0) :
    nldPairTotal p bi bj d
      = toInt32 (((List.range d).map fun m => dread p bi bj m * dread p bi bj m).sum) := by
  unfold nldPairTotal
  rw [nldLaneSum_char, nldLaneSum_char, nldLaneSum_char, nldLaneSum_char]
  apply toInt32_congr
  rw [toInt32_four_add_emod, four_lane_sum]
  congr 1
  rw [show nldChunkStarts d = (List.range (d / 8)).map fun c => 8 * c from by
    unfold nldChunkStarts; rw [show (d + 7) / 8 = d / 8 from by omega]]
  rw [chunk_sum_split (fun m => dread p bi bj m * dread p bi bj m) (d / 8)]
  rw [show 8 * (d / 8) = d from by omega]

theorem dread_eq (s : List Int) (d τ i j k : Nat) (hi : i < psSize s.length d τ)
    (hj : j < psSize s.length d τ) (hk : k < d) :
    dread (nldGet s d τ) (i * d) (j * d) k
      = toInt16 (cmsisRowGet s τ i d k - cmsisRowGet s τ j d k) := by
  unfold dread
  rw [nldGet_eq s d τ i k hi hk, nldGet_eq s d τ j k hj hk,
    cmsisRowGet_eq s τ i d k hk, cmsisRowGet_eq s τ j d k hk]

theorem nldMinLane_eq (s : List Int) (d τ i l : Nat) :
    nldMinLane s d τ i l
      = ((eligibleIdx (psSize s.length d τ) τ i).map
          fun j => nldLaneSum (nldGet s d τ) (i * d) (j * d) d l).foldl min int32Max := by
  unfold nldMinLane eligibleIdx
  rw [foldl_guard_eq_filter (fun j => absDiff i j < τ)
    (fun acc j => min acc (nldLaneSum (nldGet s d τ) (i * d) (j * d) d l))
    (List.range (psSize s.length d τ)) int32Max]
  rw [foldl_min_map]

/-! ## Helper facts for the claim theorems -/

theorem sum_map_const_nat (N d : Nat) : ((List.range N).map fun _ => d).sum = N * d := by
  induction N with
  | zero => simp
  | succ n ih =>
      rw [show List.range (n + 1) = List.range n ++ [n] from List.range_succ n,
        List.map_append, List.sum_append, ih]
      simp
      ring

theorem add_lt_of_lt_sub (L A B i : Nat) (h1 : i < L - A) (h2 : B ≤ A) : i + B < L := by
  omega

/-- The generic phase space as a list of rows (the pointer-per-row layout). -/
def cmsisPhase (s : List Int) (d τ : Nat) : List (List Int) :=
  (List.range (psSize s.length d τ)).map fun i => cmsisRow s τ i d

/-! ## Claim theorems -/

/-- C1, counterexample.  For signal sLane with embedding_dim = 8 and
time_delay = 1 the only eligible candidate of query 0 is 1, the generic
strategy assigns the pair (0,1) the distance 2 (matching the spec
formula), yet the specialized strategy stores 0 for query 0: the two
strategies do not assign the pair the same value. -/
theorem c1_counterexample :
    eligibleIdx (psSize sLane.length 8 1) 1 0 = [1]
    ∧ cmsisDistanceVal sLane 1 8 0 1 = 2
    ∧ specDistance sLane 8 1 0 1 = 2
    ∧ nldMinDistance sLane 8 1 0 = 0
    ∧ nldMinDistance sLane 8 1 0 ≠ cmsisDistanceVal sLane 1 8 0 1 := by
  decide

/-- C1, amended.  When embedding_dim is a multiple of 8 (so the
specialized k loop reads exactly one row) the two strategies agree on
the accumulated per-pair squared distance: the int32 total of the four
specialized lane accumulators equals the generic int32 sum, and the
generic strategy stores exactly that sum shifted right by 15 and cast
to int16.  The strategies differ only after this point: the specialized
kernel folds lane-wise minima instead of forming the per-pair total. -/
theorem c1_amended_theorem (s : List Int) (d τ i j : Nat) (h8 : d % 8 = 0)
    (hi : i < psSize s.length d τ) (hj : j < psSize s.length d τ) :
    nldPairTotal (nldGet s d τ) (i * d) (j * d) d
      = cmsisSum (cmsisRowGet s τ i d) (cmsisRowGet s τ j d) d
    ∧ cmsisDistanceVal s τ d i j
      = toInt16 (asr15 (cmsisSum (cmsisRowGet s τ i d) (cmsisRowGet s τ j d) d)) := by
  constructor
  · rw [nldPairTotal_char _ _ _ _ h8, cmsisSum_char,
      show 8 * (d / 8) = d from by omega]
    simp only [Nat.sub_self, List.range'_zero, List.map_nil, List.sum_nil, add_zero]
    congr 1
    congr 1
    apply List.map_congr_left
    intro k hk
    rw [dread_eq s d τ i j k hi hj (List.mem_range.mp hk)]
  · rfl

/-- C1, witness for the amended theorem at sLane, d = 8, pair (0, 1). -/
theorem c1_amended_witness :
    nldPairTotal (nldGet sLane 8 1) (0 * 8) (1 * 8) 8
      = cmsisSum (cmsisRowGet sLane 1 0 8) (cmsisRowGet sLane 1 1 8) 8
    ∧ cmsisDistanceVal sLane 1 8 0 1
      = toInt16 (asr15 (cmsisSum (cmsisRowGet sLane 1 0 8) (cmsisRowGet sLane 1 1 8) 8)) :=
  c1_amended_theorem sLane 8 1 0 1 (by decide) (by decide) (by decide)

/-- C2, counterexample.  For sLane, d = 8, time_delay = 1, the only
eligible candidate of query 0 is j = 1 and the down-scaled squared
distance of the pair is 2, yet min_distances[0] = 0: the kernel takes
the minimum over the four lane partial sums (the zero lanes win), not
over per-candidate totals. -/
theorem c2_counterexample :
    eligibleIdx (psSize sLane.length 8 1) 1 0 = [1]
    ∧ specDistance sLane 8 1 0 1 = 2
    ∧ nldMinDistance sLane 8 1 0 = 0
    ∧ nldMinDistance sLane 8 1 0 ≠ specDistance sLane 8 1 0 1 := by
  decide

/-- C2, amended.  min_distances[i] is the int16 cast of the arithmetic
15-bit right shift of the minimum, over all eligible candidates j and
all four vector lanes, of the lane partial sums of sum_vec, seeded with
INT32_MAX: the value before the shift is a lower bound of every lane
partial sum of every eligible candidate, and is either INT32_MAX or
attained by some eligible candidate at some lane. -/
theorem c2_amended_theorem (s : List Int) (d τ i : Nat) :
    (∀ j ∈ eligibleIdx (psSize s.length d τ) τ i, ∀ l, l < 4 →
      nldMinPre s d τ i ≤ nldLaneSum (nldGet s d τ) (i * d) (j * d) d l)
    ∧ (nldMinPre s d τ i = int32Max
        ∨ ∃ j ∈ eligibleIdx (psSize s.length d τ) τ i, ∃ l, l < 4
            ∧ nldMinPre s d τ i = nldLaneSum (nldGet s d τ) (i * d) (j * d) d l)
    ∧ nldMinPre s d τ i ≤ int32Max
    ∧ nldMinDistance s d τ i = toInt16 (asr15 (nldMinPre s d τ i)) := by
  have hb0 : nldMinPre s d τ i ≤ nldMinLane s d τ i 0 :=
    le_trans (min_le_left _ _) (min_le_left _ _)
  have hb1 : nldMinPre s d τ i ≤ nldMinLane s d τ i 1 :=
    le_trans (min_le_left _ _) (min_le_right _ _)
  have hb2 : nldMinPre s d τ i ≤ nldMinLane s d τ i 2 :=
    le_trans (min_le_right _ _) (min_le_left _ _)
  have hb3 : nldMinPre s d τ i ≤ nldMinLane s d τ i 3 :=
    le_trans (min_le_right _ _) (min_le_right _ _)
  have hlanele : ∀ l, ∀ j ∈ eligibleIdx (psSize s.length d τ) τ i,
      nldMinLane s d τ i l ≤ nldLaneSum (nldGet s d τ) (i * d) (j * d) d l := by
    intro l j hj
    rw [nldMinLane_eq]
    exact foldl_min_le_mem _ _ (List.mem_map_of_mem _ hj) _
  refine ⟨?_, ?_, ?_, rfl⟩
  · intro j hj l hl
    have hl4 : l = 0 ∨ l = 1 ∨ l = 2 ∨ l = 3 := by omega
    rcases hl4 with rfl | rfl | rfl | rfl
    · exact le_trans hb0 (hlanele 0 j hj)
    · exact le_trans hb1 (hlanele 1 j hj)
    · exact le_trans hb2 (hlanele 2 j hj)
    · exact le_trans hb3 (hlanele 3 j hj)
  · have hlane : ∀ l, nldMinLane s d τ i l = int32Max
        ∨ ∃ j ∈ eligibleIdx (psSize s.length d τ) τ i,
            nldMinLane s d τ i l = nldLaneSum (nldGet s d τ) (i * d) (j * d) d l := by
      intro l
      rw [nldMinLane_eq]
      rcases foldl_min_mem_or ((eligibleIdx (psSize s.length d τ) τ i).map
        fun j => nldLaneSum (nldGet s d τ) (i * d) (j * d) d l) int32Max with h | h
      · exact Or.inl h
      · rcases List.mem_map.mp h with ⟨j, hj, hjeq⟩
        exact Or.inr ⟨j, hj, hjeq.symm⟩
    have hPre : nldMinPre s d τ i = nldMinLane s d τ i 0
        ∨ nldMinPre s d τ i = nldMinLane s d τ i 1
        ∨ nldMinPre s d τ i = nldMinLane s d τ i 2
        ∨ nldMinPre s d τ i = nldMinLane s d τ i 3 := by
      unfold nldMinPre
      rcases min_choice (min (nldMinLane s d τ i 0) (nldMinLane s d τ i 1))
        (min (nldMinLane s d τ i 2) (nldMinLane s d τ i 3)) with h | h
      · rcases min_choice (nldMinLane s d τ i 0) (nldMinLane s d τ i 1) with h2 | h2
        · exact Or.inl (by rw [h, h2])
        · exact Or.inr (Or.inl (by rw [h, h2]))
      · rcases min_choice (nldMinLane s d τ i 2) (nldMinLane s d τ i 3) with h2 | h2
        · exact Or.inr (Or.inr (Or.inl (by rw [h, h2])))
        · exact Or.inr (Or.inr (Or.inr (by rw [h, h2])))
    rcases hPre with hP | hP | hP | hP
    · rcases hlane 0 with h | ⟨j, hj, hjeq⟩
      · exact Or.inl (by rw [hP, h])
      · exact Or.inr ⟨j, hj, 0, by omega, by rw [hP, hjeq]⟩
    · rcases hlane 1 with h | ⟨j, hj, hjeq⟩
      · exact Or.inl (by rw [hP, h])
      · exact Or.inr ⟨j, hj, 1, by omega, by rw [hP, hjeq]⟩
    · rcases hlane 2 with h | ⟨j, hj, hjeq⟩
      · exact Or.inl (by rw [hP, h])
      · exact Or.inr ⟨j, hj, 2, by omega, by rw [hP, hjeq]⟩
    · rcases hlane 3 with h | ⟨j, hj, hjeq⟩
      · exact Or.inl (by rw [hP, h])
      · exact Or.inr ⟨j, hj, 3, by omega, by rw [hP, hjeq]⟩
  · refine le_trans hb0 ?_
    rw [nldMinLane_eq]
    exact foldl_min_le_init _ _

/-- C2, witness for the amended theorem at sLane, d = 8, query 0. -/
theorem c2_amended_witness :
    (∀ j ∈ eligibleIdx (psSize sLane.length 8 1) 1 0, ∀ l, l < 4 →
      nldMinPre sLane 8 1 0 ≤ nldLaneSum (nldGet sLane 8 1) (0 * 8) (j * 8) 8 l)
    ∧ (nldMinPre sLane 8 1 0 = int32Max
        ∨ ∃ j ∈ eligibleIdx (psSize sLane.length 8 1) 1 0, ∃ l, l < 4
            ∧ nldMinPre sLane 8 1 0 = nldLaneSum (nldGet sLane 8 1) (0 * 8) (j * 8) 8 l)
    ∧ nldMinPre sLane 8 1 0 ≤ int32Max
    ∧ nldMinDistance sLane 8 1 0 = toInt16 (asr15 (nldMinPre sLane 8 1 0)) :=
  c2_amended_theorem sLane 8 1 0

/-- C3: for every valid parameter combination both reconstruction
strategies produce exactly length - (embedding_dim - 1) * time_delay
embedding vectors (the contiguous buffer holds that many rows of d
values), and component k of vector i equals signal[i + k * time_delay]
under both layouts, the index being in bounds. -/
theorem c3_theorem (s : List Int) (d τ : Nat) (hd : 2 ≤ d) (hτ : 1 ≤ τ)
    (hL : (d - 1) * τ < s.length) :
    psSize s.length d τ = s.length - (d - 1) * τ
    ∧ (cmsisPhase s d τ).length = psSize s.length d τ
    ∧ (nldPhase s d τ).length = psSize s.length d τ * d
    ∧ ∀ i, i < psSize s.length d τ → ∀ k, k < d →
        i + k * τ < s.length
        ∧ cmsisRowGet s τ i d k = sget s (i + k * τ)
        ∧ nldGet s d τ (i * d + k) = sget s (i + k * τ) := by
  refine ⟨rfl, by unfold cmsisPhase; simp, ?_, ?_⟩
  · unfold nldPhase
    rw [List.length_flatten, List.map_map]
    have hconst : (List.range (psSize s.length d τ)).map
          (List.length ∘ fun i => nldRow s τ i d)
        = (List.range (psSize s.length d τ)).map fun _ => d := by
      apply List.map_congr_left
      intro a _
      exact nldRow_length s τ a d
    rw [hconst, sum_map_const_nat]
  · intro i hi k hk
    have hkτ : k * τ ≤ (d - 1) * τ := Nat.mul_le_mul_right τ (by omega)
    have hiL : i < s.length - (d - 1) * τ := hi
    exact ⟨add_lt_of_lt_sub s.length ((d - 1) * τ) (k * τ) i hiL hkτ,
      cmsisRowGet_eq s τ i d k hk, nldGet_eq s d τ i k hi hk⟩

/-- C3, witness at signal [1,2,3,4,5], embedding_dim 2, time_delay 1. -/
theorem c3_witness :
    psSize (5 : Nat) 2 1 = 5 - (2 - 1) * 1
    ∧ (cmsisPhase [1, 2, 3, 4, 5] 2 1).length = psSize (5 : Nat) 2 1
    ∧ (nldPhase [1, 2, 3, 4, 5] 2 1).length = psSize (5 : Nat) 2 1 * 2
    ∧ ∀ i, i < psSize (5 : Nat) 2 1 → ∀ k, k < 2 →
        i + k * 1 < 5
        ∧ cmsisRowGet [1, 2, 3, 4, 5] 1 i 2 k = sget [1, 2, 3, 4, 5] (i + k * 1)
        ∧ nldGet [1, 2, 3, 4, 5] 2 1 (i * 2 + k) = sget [1, 2, 3, 4, 5] (i + k * 1) := by
  have h := c3_theorem [1, 2, 3, 4, 5] 2 1 (by decide) (by decide) (by decide)
  exact h

/-- C4: the claim requires an InvalidParameters failure for
signal.length <= (embedding_dim - 1) * time_delay, but the C entry
point has no error path at all: at signal [5], embedding_dim 2,
time_delay 1 (phase_space_size = 0) it completes normally, writes
*result = 0 and computes no distances. -/
theorem c4_eval_theorem :
    cmsisComputeLyapunov [5] 2 1 = { result := 0, distances := [] }
    ∧ psSize (1 : Nat) 2 1 = 0 := by
  decide

/-- C5: the utilization derivation of get_performance_metrics divides
by total_instructions without any zero guard; right after
reset_performance_counters the quotient is the IEEE non-finite value
NaN (modelled none), not 0. -/
theorem c5_eval_theorem :
    simdUtilizationPercent resetPerformanceCounters.simd_instructions
        resetPerformanceCounters.total_instructions = none
    ∧ simdUtilizationPercent resetPerformanceCounters.simd_instructions
        resetPerformanceCounters.total_instructions ≠ some 0 := by
  constructor
  · rfl
  · intro h
    simp [simdUtilizationPercent, resetPerformanceCounters] at h

/-- C6: every candidate the specialized nearest-neighbor loop lets
contribute to a minimum lane lies in eligibleIdx, whose members all
satisfy time_delay <= |i - j| and are distinct from i whenever
time_delay >= 1; the lane minima are folds over exactly that list. -/
theorem c6_theorem (s : List Int) (d τ i : Nat) (hτ : 1 ≤ τ) :
    (∀ j ∈ eligibleIdx (psSize s.length d τ) τ i, τ ≤ absDiff i j ∧ j ≠ i)
    ∧ ∀ l, nldMinLane s d τ i l
        = ((eligibleIdx (psSize s.length d τ) τ i).map
            fun j => nldLaneSum (nldGet s d τ) (i * d) (j * d) d l).foldl min int32Max := by
  constructor
  · intro j hj
    have h := (List.mem_filter.mp hj).2
    have h2 : ¬ absDiff i j < τ := of_decide_eq_true h
    have hii : absDiff i i = 0 := by unfold absDiff; simp
    constructor
    · omega
    · intro hji
      rw [hji] at h2
      omega
  · intro l
    exact nldMinLane_eq s d τ i l

/-- C6, witness at sLane, d = 8, time_delay 1, query 0. -/
theorem c6_witness :
    (∀ j ∈ eligibleIdx (psSize sLane.length 8 1) 1 0, 1 ≤ absDiff 0 j ∧ j ≠ 0)
    ∧ ∀ l, nldMinLane sLane 8 1 0 l
        = ((eligibleIdx (psSize sLane.length 8 1) 1 0).map
            fun j => nldLaneSum (nldGet sLane 8 1) (0 * 8) (j * 8) 8 l).foldl min int32Max :=
  c6_theorem sLane 8 1 0 (by decide)

/-- C7, counterexample.  On sWrap the pair (0,1) has the Q15 samples
32767 and -32768 aligned, whose difference 65535 wraps mod 2^16 to -1
inside vsubq_s16: the generic accumulator yields 1073741825 while the
exact sum of squared differences is 5368578049, so an intermediate of
the computation did wrap. -/
theorem c7_counterexample :
    cmsisSum (cmsisRowGet sWrap 1 0 8) (cmsisRowGet sWrap 1 1 8) 8 = 1073741825
    ∧ exactSum (cmsisRowGet sWrap 1 0 8) (cmsisRowGet sWrap 1 1 8) 8 = 5368578049
    ∧ cmsisSum (cmsisRowGet sWrap 1 0 8) (cmsisRowGet sWrap 1 1 8) 8
        ≠ exactSum (cmsisRowGet sWrap 1 0 8) (cmsisRowGet sWrap 1 1 8) 8 := by
  decide

/-- C7, amended.  The multiply and accumulate steps do run in >= 32-bit
precision, but the vector differences are formed mod 2^16: whenever
every component difference is representable in int16 and the exact
accumulated sum stays below 2^31, the generic accumulator equals the
exact sum of squared differences and the stored distance is that sum
shifted right by 15 and cast to int16. -/
theorem c7_amended_theorem (vi vj : Nat → Int) (d : Nat)
    (hdiff : ∀ k, k < d → toInt16 (vi k - vj k) = vi k - vj k)
    (hbound : exactSum vi vj d < 2147483648) :
    cmsisSum vi vj d = exactSum vi vj d
    ∧ toInt16 (asr15 (cmsisSum vi vj d)) = toInt16 (asr15 (exactSum vi vj d)) := by
  obtain ⟨q, hq⟩ : ∃ q, d / 8 = q := ⟨_, rfl⟩
  have h8q : 8 * q ≤ d := by omega
  have hmain : cmsisSum vi vj d = exactSum vi vj d := by
    rw [cmsisSum_char, hq]
    have hchunkmap : (List.range (8 * q)).map
          (fun k => toInt16 (vi k - vj k) * toInt16 (vi k - vj k))
        = (List.range (8 * q)).map fun k => (vi k - vj k) * (vi k - vj k) := by
      apply List.map_congr_left
      intro k hk
      rw [hdiff k (by have := List.mem_range.mp hk; omega)]
    rw [hchunkmap, ← List.sum_append, ← List.map_append]
    have hranges : List.range (8 * q) ++ List.range' (8 * q) (d - 8 * q)
        = List.range d := by
      rw [List.range_eq_range' (8 * q), List.range_eq_range' d,
        show List.range' 0 d = List.range' 0 (8 * q + (d - 8 * q)) from by
          rw [show 8 * q + (d - 8 * q) = d from by omega],
        range'_split (8 * q) 0 (d - 8 * q)]
      simp
    rw [hranges]
    unfold exactSum
    have h0 : (0 : Int)
        ≤ ((List.range d).map fun k => (vi k - vj k) * (vi k - vj k)).sum := by
      apply List.sum_nonneg
      intro x hx
      rcases List.mem_map.mp hx with ⟨k, _, hkx⟩
      rw [← hkx]
      exact mul_self_nonneg _
    apply toInt32_eq_self
    · omega
    · unfold exactSum at hbound
      exact hbound
  exact ⟨hmain, by rw [hmain]⟩

/-- C7, witness for the amended theorem: constant vectors of difference
-1 in dimension 3 accumulate to exactly 3. -/
theorem c7_amended_witness :
    cmsisSum (fun _ => 0) (fun _ => 1) 3 = exactSum (fun _ => 0) (fun _ => 1) 3
    ∧ toInt16 (asr15 (cmsisSum (fun _ => 0) (fun _ => 1) 3))
        = toInt16 (asr15 (exactSum (fun _ => 0) (fun _ => 1) 3)) :=
  c7_amended_theorem (fun _ => 0) (fun _ => 1) 3 (by decide) (by decide)

/-- C8: the claim requires an InvalidParameters failure for
min_box_size < 2, but the DFA entry points are placeholders with no
error path: with min_box_size = 1 both return normally, leave alpha
unwritten (none) and report only the constant utilization figures. -/
theorem c8_eval_theorem :
    cmsisComputeDfa [0, 0, 0, 0, 0, 0, 0, 0] 1 2
      = (none,
          { processing_time_ms := 0, simd_utilization_percent := 60,
            total_instructions := 0, simd_instructions := 0,
            memory_bandwidth_gb_s := 0 })
    ∧ nldComputeDfa [0, 0, 0, 0, 0, 0, 0, 0] 1 2
      = (none,
          { processing_time_ms := 0, simd_utilization_percent := 95,
            total_instructions := 0, simd_instructions := 0,
            memory_bandwidth_gb_s := 0 }) :=
  ⟨rfl, rfl⟩

/-- C9: the generic Lyapunov entry point stores the constant 0 through
the result pointer for every signal and every parameter choice,
independent of all computed distances. -/
theorem c9_theorem (s : List Int) (d τ : Nat) :
    (cmsisComputeLyapunov s d τ).result = 0 := rfl

/-- C10: both DFA entry points leave the alpha output unwritten (none)
and return the all-zero metrics record except for the constant
simd_utilization_percent, 60 for the generic and 95 for the
specialized variant, for every signal and box-size arguments. -/
theorem c10_theorem (s : List Int) (minBox maxBox : Int) :
    cmsisComputeDfa s minBox maxBox
      = (none,
          { processing_time_ms := 0, simd_utilization_percent := 60,
            total_instructions := 0, simd_instructions := 0,
            memory_bandwidth_gb_s := 0 })
    ∧ nldComputeDfa s minBox maxBox
      = (none,
          { processing_time_ms := 0, simd_utilization_percent := 95,
            total_instructions := 0, simd_instructions := 0,
            memory_bandwidth_gb_s := 0 }) :=
  ⟨rfl, rfl⟩
